import Mathlib

/-!
Shallow embedding of the AI candidate sourcing engine.

The presentation layer (frontend) is embedded directly from the TypeScript
sources: the API response mapping in `fetchCandidates`, the submission
validation in `JobForm.handleSubmit`, the filter/sort in
`ResultsDisplay.filteredAndSortedCandidates`, and the score display in
`CandidateCard`.  Machine floats are modelled as rationals; JavaScript's
stable `Array.prototype.sort` is modelled as a stable insertion sort.

The core sourcing pipeline (cache store, profile discoverer, fit scorer,
outreach composer, orchestrator) lives in Python sources that are not part
of the provided tree; those components are modelled from the specification,
as marked on each definition.
-/

namespace Sourcing

/-- A candidate as consumed by the presentation layer
(frontend type `Candidate`, with the four-key breakdown type widened to the
actual key/value mapping the code stores in it). -/
structure Candidate where
  id : String
  name : String
  title : String
  linkedinUrl : String
  fitScore : ℚ
  scoreBreakdown : List (String × ℚ)
  outreachMessage : String
  avatar : String
deriving DecidableEq

/-- A raw backend candidate as it appears in the JSON response consumed by
`fetchCandidates` (src/unnamed/part_001); every field may be absent. -/
structure BackendCandidate where
  bname : Option String
  headline : Option String
  linkedin_url : Option String
  url : Option String
  fit_score : Option ℚ
  score_breakdown : Option (List (String × ℚ))
  outreach_message : Option String
  bmessage : Option String
deriving DecidableEq

/-- JavaScript `x || d` on an optional string field: an absent/null field and
the empty string both fall through to the default. -/
def jsOrS : Option String → String → String
  | none, d => d
  | some s, d => if s = "" then d else s

/-- JavaScript `x || d` on an optional numeric field: an absent/null field and
0 both fall through to the default. -/
def jsOrQ : Option ℚ → ℚ → ℚ
  | none, d => d
  | some x, d => if x = 0 then d else x

/-- Uppercase hexadecimal digit, as produced by `encodeURIComponent`. -/
def hexDigitUpper (n : Nat) : Char :=
  if n < 10 then Char.ofNat (48 + n) else Char.ofNat (55 + n)

def percentEncodeByte (b : Nat) : List Char :=
  ['%', hexDigitUpper (b / 16), hexDigitUpper (b % 16)]

/-- UTF-8 encoding of one character, as a list of byte values. -/
def utf8Bytes (c : Char) : List Nat :=
  let n := c.toNat
  if n < 128 then [n]
  else if n < 2048 then [192 + n / 64, 128 + n % 64]
  else if n < 65536 then [224 + n / 4096, 128 + n / 64 % 64, 128 + n % 64]
  else [240 + n / 262144, 128 + n / 4096 % 64, 128 + n / 64 % 64, 128 + n % 64]

/-- Characters `encodeURIComponent` leaves unescaped. -/
def isUriUnreserved (c : Char) : Bool :=
  c.isAlpha || c.isDigit ||
    ['-', '_', '.', '!', '~', '*', '(', ')'].contains c || c == Char.ofNat 39

/-- JavaScript `encodeURIComponent`: unreserved characters pass through,
everything else is percent-encoded per UTF-8 byte. -/
def encodeURIComponent (s : String) : String :=
  String.mk ((s.data.map fun c =>
    if isUriUnreserved c then [c]
    else ((utf8Bytes c).map percentEncodeByte).flatten).flatten)

/-- The element mapping inside `fetchCandidates` (src/unnamed/part_001,
lines 13-22): defaults for missing fields, the index as id, and a dicebear
avatar URL seeded with the candidate name. -/
def mapCandidate (idx : Nat) (c : BackendCandidate) : Candidate :=
  ⟨Nat.repr idx,
   jsOrS c.bname "",
   jsOrS c.headline "",
   jsOrS c.linkedin_url (jsOrS c.url ""),
   jsOrQ c.fit_score 0,
   c.score_breakdown.getD [],
   jsOrS c.outreach_message (jsOrS c.bmessage ""),
   "https://api.dicebear.com/7.x/identicon/svg?seed=" ++
     encodeURIComponent (jsOrS c.bname "candidate")⟩

/-- JavaScript `Array.prototype.map` with the element index. -/
def mapWithIndex {α β : Type} (f : Nat → α → β) : Nat → List α → List β
  | _, [] => []
  | i, a :: rest => f i a :: mapWithIndex f (i + 1) rest

/-- `fetchCandidates` (src/unnamed/part_001):
`(res.data.top_candidates || []).map((c, idx) => ...)`. -/
def fetchCandidates (top_candidates : Option (List BackendCandidate)) : List Candidate :=
  mapWithIndex mapCandidate 0 (top_candidates.getD [])

/-- Whitespace characters removed by JavaScript `String.prototype.trim`
(restricted to the ASCII whitespace occurring in this embedding). -/
def isWsChar (c : Char) : Bool := c = ' ' || c = '\t' || c = '\n' || c = '\r'

/-- JavaScript `String.prototype.trim`: strip whitespace from both ends. -/
def jsTrim (s : String) : String :=
  String.mk (((s.data.dropWhile isWsChar).reverse.dropWhile isWsChar).reverse)

/-- `JobForm.handleSubmit` (src/frontend/src/components/JobForm.tsx,
lines 22-36): the trimmed description must be 100 to 2000 characters long;
on success the trimmed text is submitted to the pipeline. -/
def handleSubmit (jobDescription : String) : Except String String :=
  if (jsTrim jobDescription).length < 100 then
    Except.error "Job description must be at least 100 characters long."
  else if (jsTrim jobDescription).length > 2000 then
    Except.error "Job description must not exceed 2000 characters."
  else
    Except.ok (jsTrim jobDescription)

section StableSort

variable {α : Type} (key : α → ℚ)

/-- Stable descending insertion: `x` (earlier in the input) goes in front of
the first element whose key does not exceed `key x`. -/
def insDesc (x : α) : List α → List α
  | [] => [x]
  | y :: ys => if key y ≤ key x then x :: y :: ys else y :: insDesc x ys

/-- Stable sort, descending by `key`; models JavaScript's stable
`Array.prototype.sort` with comparator `(a, b) => key b - key a`. -/
def sortDesc : List α → List α
  | [] => []
  | x :: xs => insDesc key x (sortDesc xs)

end StableSort

/-- `ResultsDisplay.filteredAndSortedCandidates`
(src/frontend/src/components/ResultsDisplay.tsx, lines 16-23) for the default
`sortBy = score` branch: keep candidates with `fitScore >= filterMinScore`,
then sort by fitScore descending (stable). -/
def filteredAndSortedCandidates (filterMinScore : ℚ) (candidates : List Candidate) :
    List Candidate :=
  sortDesc (fun c => c.fitScore)
    (candidates.filter fun c => decide (filterMinScore ≤ c.fitScore))

/-- The minimum-score options offered by the `ResultsDisplay` filter select
(ResultsDisplay.tsx, lines 107-110). -/
def minScoreOptions : List ℚ := [0, 70, 80, 90]

/-- `CandidateCard.fitScoreDisplay` (CandidateCard.tsx, line 47):
`Math.round((fitScore * 10) * 100) / 100`. -/
def fitScoreDisplay (c : Candidate) : ℚ :=
  ((round ((c.fitScore * 10) * 100) : ℤ) : ℚ) / 100

/-- `CandidateCard.scoreBreakdownDisplay` (CandidateCard.tsx, lines 48-50):
each breakdown entry under `v ↦ Math.round((v * 10) * 100) / 100`. -/
def scoreBreakdownDisplay (c : Candidate) : List (String × ℚ) :=
  c.scoreBreakdown.map fun kv => (kv.1, ((round ((kv.2 * 10) * 100) : ℤ) : ℚ) / 100)

/-- Rounding a rational to two decimal places, JavaScript style
(`Math.round(x * 100) / 100`). -/
def roundTo2 (x : ℚ) : ℚ := ((round (x * 100) : ℤ) : ℚ) / 100

/-- Modelled from the spec: the six-criterion score breakdown (section 3);
the scorer implementation (score.py) is not in the provided sources. -/
structure ScoreBreakdown where
  education : ℚ
  career_trajectory : ℚ
  experience_match : ℚ
  company_relevance : ℚ
  location_match : ℚ
  tenure : ℚ
deriving DecidableEq

/-- The six criterion names, in rubric order. -/
def criteriaNames : List String :=
  ["education", "career_trajectory", "experience_match",
   "company_relevance", "location_match", "tenure"]

/-- The breakdown as the key/value mapping it is serialized to. -/
def ScoreBreakdown.toList (b : ScoreBreakdown) : List (String × ℚ) :=
  [("education", b.education), ("career_trajectory", b.career_trajectory),
   ("experience_match", b.experience_match), ("company_relevance", b.company_relevance),
   ("location_match", b.location_match), ("tenure", b.tenure)]

/-- Modelled from the spec: FitScore, the fixed weighted sum of the six
criteria (section 3). -/
def fitScore (b : ScoreBreakdown) : ℚ :=
  b.education * (20 / 100) + b.career_trajectory * (20 / 100) +
    b.experience_match * (25 / 100) + b.company_relevance * (15 / 100) +
    b.location_match * (10 / 100) + b.tenure * (10 / 100)

/-- Modelled from the spec: the deterministic fallback breakdown — the
neutral value 5 for every criterion (section 4.3). -/
def fallbackBreakdown : ScoreBreakdown := ⟨5, 5, 5, 5, 5, 5⟩

/-- Key lookup in a parsed JSON object. -/
def lookupKey (m : List (String × ℚ)) (k : String) : Option ℚ :=
  (m.find? fun kv => kv.1 == k).map fun kv => kv.2

def qInRange (x : ℚ) : Bool := decide (0 ≤ x) && decide (x ≤ 10)

/-- Modelled from the spec: validation of the inference backend's JSON object
(section 4.3) — all six keys must be present and in [0,10], otherwise the
whole breakdown is rejected (whole-breakdown fallback, not partial). -/
def validateBreakdown (m : List (String × ℚ)) : Option ScoreBreakdown :=
  match lookupKey m "education", lookupKey m "career_trajectory",
        lookupKey m "experience_match", lookupKey m "company_relevance",
        lookupKey m "location_match", lookupKey m "tenure" with
  | some e, some ct, some ex, some cr, some lm, some tn =>
      if qInRange e && qInRange ct && qInRange ex &&
          qInRange cr && qInRange lm && qInRange tn then
        some ⟨e, ct, ex, cr, lm, tn⟩
      else none
  | _, _, _, _, _, _ => none

/-- Modelled from the spec: `score` (section 4.3) — the validated breakdown,
or the whole-breakdown fallback on inference failure (`none`) or malformed
output; the Bool marks a fallback (InferenceDegraded). -/
def scoreCandidate (inferenceOutput : Option (List (String × ℚ))) :
    ℚ × ScoreBreakdown × Bool :=
  match inferenceOutput with
  | none => (fitScore fallbackBreakdown, fallbackBreakdown, true)
  | some m =>
    match validateBreakdown m with
    | some b => (fitScore b, b, false)
    | none => (fitScore fallbackBreakdown, fallbackBreakdown, true)

/-- Modelled from the spec: a candidate profile (section 3). -/
structure CandidateProfile where
  profile_url : String
  display_name : String
  headline : String
  raw_text : String
  source : String
deriving DecidableEq

/-- Modelled from the spec: the outcome of one discovery strategy — a list of
profiles (possibly empty) or an outright failure (network/auth). -/
inductive StrategyResult where
  | ok (profiles : List CandidateProfile)
  | failed
deriving DecidableEq

inductive PipelineError where
  | discoveryUnavailable
deriving DecidableEq

/-- Per-strategy deduplication by profile URL, keeping first occurrences. -/
def dedupByUrl (ps : List CandidateProfile) : List CandidateProfile :=
  ps.foldl
    (fun acc p => if acc.any fun q => q.profile_url == p.profile_url then acc else acc ++ [p])
    []

/-- Modelled from the spec: the prioritized strategy chain (section 4.2) —
strategies are attempted in order, stopping at the first one returning at
least one profile; a chain where at least one strategy ran but none found
profiles succeeds with the empty sequence; only a chain in which every
strategy fails outright signals DiscoveryUnavailable.  `anyOk` records
whether some earlier strategy ran without failing. -/
def runChain (anyOk : Bool) (maxResults : Nat) :
    List StrategyResult → Except PipelineError (List CandidateProfile)
  | [] => if anyOk then Except.ok [] else Except.error PipelineError.discoveryUnavailable
  | s :: rest =>
    match s with
    | StrategyResult.failed => runChain anyOk maxResults rest
    | StrategyResult.ok ps =>
      let ds := dedupByUrl ps
      if ds.isEmpty then runChain true maxResults rest
      else Except.ok (ds.take maxResults)

/-- Modelled from the spec: `discover` over the three strategies — structured
search, alternate search API, scraping (section 4.2). -/
def discover (s1 s2 s3 : StrategyResult) (maxResults : Nat) :
    Except PipelineError (List CandidateProfile) :=
  runChain false maxResults [s1, s2, s3]

/-- Split a character sequence into words at single spaces. -/
def splitWords : List Char → List (List Char)
  | [] => [[]]
  | c :: cs =>
    match splitWords cs with
    | [] => [[]]
    | w :: ws => if c = ' ' then [] :: w :: ws else (c :: w) :: ws

/-- Join words with single spaces. -/
def joinWords : List (List Char) → List Char
  | [] => []
  | [w] => w
  | w :: ws => w ++ ' ' :: joinWords ws

/-- Greedily keep further words while each fits in the remaining budget
together with its separating space. -/
def fitMore (rem : Nat) : List (List Char) → List (List Char)
  | [] => []
  | w :: ws => if w.length + 1 ≤ rem then w :: fitMore (rem - (w.length + 1)) ws else []

/-- Greedily keep a prefix of the words fitting within `maxLen` characters
when joined with single spaces. -/
def fitWords (maxLen : Nat) : List (List Char) → List (List Char)
  | [] => []
  | w :: ws => if w.length ≤ maxLen then w :: fitMore (maxLen - w.length) ws else []

/-- Modelled from the spec: the maximum outreach message length — the
platform message-size bound (section 4.4); message.py is not in the provided
sources. -/
def maxMessageLength : Nat := 300

/-- Modelled from the spec: truncation at a word boundary, never mid-word
(section 4.4). -/
def truncateAtWordBoundary (maxLen : Nat) (cs : List Char) : List Char :=
  if cs.length ≤ maxLen then cs else joinWords (fitWords maxLen (splitWords cs))

/-- Modelled from the spec: the deterministic template message built from the
candidate's name/headline and a fixed phrase referencing the role
(section 4.4). -/
def fallbackMessage (p : CandidateProfile) (role : String) : List Char :=
  ("Hi " ++ p.display_name ++ ", your background in " ++ p.headline ++
    " stood out to us. Would you be open to a quick chat about our " ++
    role ++ " role?").data

/-- Modelled from the spec: the fixed last-resort message used when even the
template admits no word-boundary truncation within the bound. -/
def minimalMessage : List Char :=
  "Hi, would you be open to a quick chat about a new role?".data

/-- Modelled from the spec: the message `compose` truncates — the inference
output when available and not blank, the deterministic template otherwise
(section 4.4). -/
def composeBase (inference : Option String) (p : CandidateProfile) (role : String) : List Char :=
  match inference with
  | none => fallbackMessage p role
  | some m => if m.data.all (fun c => c = ' ') then fallbackMessage p role else m.data

/-- Modelled from the spec: `compose` (section 4.4) — inference failure or
blank output substitutes the deterministic template; the result is
validated/truncated against the maximum length at a word boundary, with the
fixed last-resort message when that validation leaves nothing. -/
def compose (inference : Option String) (p : CandidateProfile) (role : String) : String :=
  let t := truncateAtWordBoundary maxMessageLength (composeBase inference p role)
  if t.isEmpty then String.mk minimalMessage else String.mk t

/-- Split a character sequence into words at whitespace characters
(space, tab, newline, carriage return). -/
def splitWs : List Char → List (List Char)
  | [] => [[]]
  | c :: cs =>
    match splitWs cs with
    | [] => [[]]
    | w :: ws => if isWsChar c then [] :: w :: ws else (c :: w) :: ws

/-- The whitespace-collapsed word sequence of a text: its maximal nonempty
whitespace-free runs, in order. -/
def textWords (s : String) : List (List Char) :=
  (splitWs s.data).filter fun w => !w.isEmpty

/-- Modelled from the spec: whitespace normalization of a job description —
trimmed and whitespace-collapsed: the nonempty whitespace-free words joined
by single spaces (section 3). -/
def normalizeText (s : String) : String :=
  String.mk (joinWords (textWords s))

/-- Modelled from the spec: the cache key — a stable content fingerprint of
the normalized job-description text (section 4.1); the normalized text
itself serves as the fingerprint, realizing the spec's requirement that
normalized-equal texts share a key and normalized-different texts never
collide. -/
def cacheKey (jobDescription : String) : String := normalizeText jobDescription

/-- Modelled from the spec: a ranked result (section 3). -/
structure RankedResult where
  candidate : CandidateProfile
  fit_score : ℚ
  breakdown : ScoreBreakdown
  message : String
  degraded : Bool
deriving DecidableEq

/-- Modelled from the spec: score-and-compose for one candidate, with the
scoring and composition inference outcomes supplied as doubles. -/
def makeResult (scoreOf : CandidateProfile → Option (List (String × ℚ)))
    (msgOf : CandidateProfile → Option String) (role : String)
    (p : CandidateProfile) : RankedResult :=
  let s := scoreCandidate (scoreOf p)
  ⟨p, s.1, s.2.1, compose (msgOf p) p role, s.2.2⟩

/-- Modelled from the spec: RANK — stable sort by fit score descending
(section 4.5). -/
def rank (rs : List RankedResult) : List RankedResult :=
  sortDesc (fun r => r.fit_score) rs

/-- Modelled from the spec: the orchestrator on a cache miss (section 4.5) —
discovery, then scoring/composition per candidate, then ranking; only
DiscoveryUnavailable aborts the request. -/
def runPipeline (s1 s2 s3 : StrategyResult)
    (scoreOf : CandidateProfile → Option (List (String × ℚ)))
    (msgOf : CandidateProfile → Option String) (role : String) (maxResults : Nat) :
    Except PipelineError (List RankedResult) :=
  match discover s1 s2 s3 maxResults with
  | Except.error e => Except.error e
  | Except.ok ps => Except.ok (rank (ps.map (makeResult scoreOf msgOf role)))

/-- Decimal digit characters of a natural number, most significant first;
reference implementation used to reason about `Nat.repr`. -/
def decDigits (n : Nat) : List Char :=
  if h : n < 10 then [Nat.digitChar n]
  else decDigits (n / 10) ++ [Nat.digitChar (n % 10)]
decreasing_by exact Nat.div_lt_self (by omega) (by omega)

/-- Value of a decimal digit string, inverse to `decDigits`. -/
def decVal (l : List Char) : Nat :=
  l.foldl (fun a c => a * 10 + (c.toNat - 48)) 0

/-! ## Stable sort lemmas -/

section StableSortLemmas

variable {α : Type} (key : α → ℚ)

theorem insDesc_perm (x : α) (l : List α) : List.Perm (insDesc key x l) (x :: l) := by
  induction l with
  | nil => simp [insDesc]
  | cons y ys ih =>
    rw [insDesc]
    split
    · exact List.Perm.refl _
    · exact List.Perm.trans (List.Perm.cons y ih) (List.Perm.swap x y ys)

theorem sortDesc_perm (l : List α) : List.Perm (sortDesc key l) l := by
  induction l with
  | nil => simp [sortDesc]
  | cons x xs ih =>
    exact List.Perm.trans (insDesc_perm key x (sortDesc key xs)) (List.Perm.cons x ih)

theorem insDesc_pairwise (x : α) (l : List α)
    (h : List.Pairwise (fun a b => key b ≤ key a) l) :
    List.Pairwise (fun a b => key b ≤ key a) (insDesc key x l) := by
  induction l with
  | nil => simp [insDesc]
  | cons y ys ih =>
    rw [insDesc]
    split
    case isTrue hyx =>
      refine List.Pairwise.cons ?_ h
      intro b hb
      rcases List.mem_cons.mp hb with rfl | hb
      · exact hyx
      · exact le_trans (List.rel_of_pairwise_cons h hb) hyx
    case isFalse hyx =>
      have hxy : key x ≤ key y := le_of_not_le hyx
      have hys : List.Pairwise (fun a b => key b ≤ key a) ys :=
        (List.pairwise_cons.mp h).2
      refine List.Pairwise.cons ?_ (ih hys)
      intro b hb
      rcases List.mem_cons.mp ((insDesc_perm key x ys).mem_iff.mp hb) with rfl | hb
      · exact hxy
      · exact List.rel_of_pairwise_cons h hb

theorem sortDesc_pairwise (l : List α) :
    List.Pairwise (fun a b => key b ≤ key a) (sortDesc key l) := by
  induction l with
  | nil => simp [sortDesc]
  | cons x xs ih => exact insDesc_pairwise key x (sortDesc key xs) ih

theorem insDesc_filter_key_eq (x : α) (l : List α) (s : ℚ) (hx : key x = s) :
    (insDesc key x l).filter (fun a => decide (key a = s)) =
      x :: l.filter (fun a => decide (key a = s)) := by
  induction l with
  | nil => simp [insDesc, hx]
  | cons y ys ih =>
    rw [insDesc]
    split
    case isTrue hyx => simp [List.filter, hx]
    case isFalse hyx =>
      have hy : ¬ (key y = s) := by
        intro he
        exact hyx (by rw [he, ← hx])
      simp only [List.filter_cons]
      simp [hy, ih]

theorem insDesc_filter_key_ne (x : α) (l : List α) (s : ℚ) (hx : key x ≠ s) :
    (insDesc key x l).filter (fun a => decide (key a = s)) =
      l.filter (fun a => decide (key a = s)) := by
  induction l with
  | nil => simp [insDesc, hx]
  | cons y ys ih =>
    rw [insDesc]
    split
    case isTrue hyx => simp [List.filter_cons, hx]
    case isFalse hyx =>
      simp only [List.filter_cons]
      rw [ih]

theorem sortDesc_filter_key (l : List α) (s : ℚ) :
    (sortDesc key l).filter (fun a => decide (key a = s)) =
      l.filter (fun a => decide (key a = s)) := by
  induction l with
  | nil => simp [sortDesc]
  | cons x xs ih =>
    rw [sortDesc]
    by_cases hx : key x = s
    · rw [insDesc_filter_key_eq key x _ s hx, ih, List.filter_cons, if_pos (by simpa using hx)]
    · rw [insDesc_filter_key_ne key x _ s hx, ih, List.filter_cons, if_neg (by simpa using hx)]

end StableSortLemmas

/-! ## Claims -/

/-- C1 counterexample: the breakdown (8,7,9,6,5,7) does not yield FitScore
7.55 — the weighted sum 8·0.20 + 7·0.20 + 9·0.25 + 6·0.15 + 5·0.10 + 7·0.10
evaluates to 7.35. -/
theorem c1_counterexample :
    fitScore ⟨8, 7, 9, 6, 5, 7⟩ = (7.35 : ℚ) ∧ fitScore ⟨8, 7, 9, 6, 5, 7⟩ ≠ (7.55 : ℚ) := by
  constructor
  · norm_num [fitScore]
  · norm_num [fitScore]

/-- C1 (amended): FitScore equals the weighted sum of the breakdown with
weights 0.20/0.20/0.25/0.15/0.10/0.10; whenever every criterion lies in
[0,10] the FitScore lies in [0,10]; the breakdown (8,7,9,6,5,7) yields
7.35 (the value the spec computes as 7.55 by an arithmetic slip). -/
theorem c1_fit_score_weighted_sum (b : ScoreBreakdown) :
    (fitScore b =
      b.education * (0.20 : ℚ) + b.career_trajectory * (0.20 : ℚ) +
        b.experience_match * (0.25 : ℚ) + b.company_relevance * (0.15 : ℚ) +
        b.location_match * (0.10 : ℚ) + b.tenure * (0.10 : ℚ)) ∧
    (0 ≤ b.education → b.education ≤ 10 →
     0 ≤ b.career_trajectory → b.career_trajectory ≤ 10 →
     0 ≤ b.experience_match → b.experience_match ≤ 10 →
     0 ≤ b.company_relevance → b.company_relevance ≤ 10 →
     0 ≤ b.location_match → b.location_match ≤ 10 →
     0 ≤ b.tenure → b.tenure ≤ 10 →
     0 ≤ fitScore b ∧ fitScore b ≤ 10) ∧
    fitScore ⟨8, 7, 9, 6, 5, 7⟩ = (7.35 : ℚ) := by
  refine ⟨?_, ?_, ?_⟩
  · norm_num [fitScore]
  · intro h1 h2 h3 h4 h5 h6 h7 h8 h9 h10 h11 h12
    unfold fitScore
    constructor <;> nlinarith
  · norm_num [fitScore]

/-- Witness for C1 at the breakdown (8,7,9,6,5,7). -/
theorem c1_fit_score_weighted_sum_witness :
    0 ≤ fitScore ⟨8, 7, 9, 6, 5, 7⟩ ∧ fitScore ⟨8, 7, 9, 6, 5, 7⟩ ≤ 10 :=
  (c1_fit_score_weighted_sum ⟨8, 7, 9, 6, 5, 7⟩).2.1 (by norm_num) (by norm_num)
    (by norm_num) (by norm_num) (by norm_num) (by norm_num) (by norm_num)
    (by norm_num) (by norm_num) (by norm_num) (by norm_num) (by norm_num)

/-- C3: the presented result sequence (default score ordering of
ResultsDisplay, and the modelled pipeline RANK stage) is sorted descending by
fit score, and equal-score candidates keep their incoming order (stability,
expressed by preservation of every equal-score fiber). -/
theorem c3_sorted_descending_stable (minScore : ℚ) (cands : List Candidate)
    (rs : List RankedResult) :
    List.Pairwise (fun a b => b.fitScore ≤ a.fitScore)
      (filteredAndSortedCandidates minScore cands) ∧
    (∀ s : ℚ, (filteredAndSortedCandidates minScore cands).filter
        (fun c : Candidate => decide (c.fitScore = s)) =
      (cands.filter fun c => decide (minScore ≤ c.fitScore)).filter
        (fun c : Candidate => decide (c.fitScore = s))) ∧
    List.Pairwise (fun a b => b.fit_score ≤ a.fit_score) (rank rs) ∧
    (∀ s : ℚ, (rank rs).filter (fun r : RankedResult => decide (r.fit_score = s)) =
      rs.filter (fun r : RankedResult => decide (r.fit_score = s))) := by
  refine ⟨?_, ?_, ?_, ?_⟩
  · exact sortDesc_pairwise (fun c : Candidate => c.fitScore) _
  · intro s
    exact sortDesc_filter_key (fun c : Candidate => c.fitScore) _ s
  · exact sortDesc_pairwise (fun r : RankedResult => r.fit_score) rs
  · intro s
    exact sortDesc_filter_key (fun r : RankedResult => r.fit_score) rs s

theorem splitWs_ne_nil (cs : List Char) : splitWs cs ≠ [] := by
  cases cs with
  | nil => simp [splitWs]
  | cons c cs =>
    rw [splitWs]
    split
    · simp
    · split <;> simp

/-- Words produced by whitespace splitting contain no whitespace. -/
theorem splitWs_no_ws (cs : List Char) :
    ∀ w ∈ splitWs cs, ∀ c ∈ w, isWsChar c = false := by
  induction cs with
  | nil =>
    intro w hw c hc
    simp only [splitWs, List.mem_singleton] at hw
    subst hw
    simp at hc
  | cons d cs ih =>
    intro w hw c hc
    rw [splitWs] at hw
    rcases hsp : splitWs cs with _ | ⟨w0, ws⟩
    · exact absurd hsp (splitWs_ne_nil cs)
    · rw [hsp] at hw
      dsimp only at hw
      by_cases hd : isWsChar d
      · rw [if_pos hd] at hw
        rcases List.mem_cons.mp hw with rfl | hw
        · simp at hc
        · exact ih w (by rw [hsp]; exact hw) c hc
      · rw [if_neg hd] at hw
        rcases List.mem_cons.mp hw with rfl | hw
        · rcases List.mem_cons.mp hc with rfl | hc
          · simpa using hd
          · exact ih w0 (by rw [hsp]; exact List.mem_cons_self w0 ws) c hc
        · exact ih w (by rw [hsp]; exact List.mem_cons_of_mem w0 hw) c hc

/-- Two whitespace-free words followed by end-of-text or a space each can
only concatenate to the same text if they are the same word. -/
theorem words_append_inj : ∀ (w₁ w₂ t₁ t₂ : List Char),
    (∀ c ∈ w₁, isWsChar c = false) → (∀ c ∈ w₂, isWsChar c = false) →
    (t₁ = [] ∨ ∃ u, t₁ = ' ' :: u) → (t₂ = [] ∨ ∃ u, t₂ = ' ' :: u) →
    w₁ ++ t₁ = w₂ ++ t₂ → w₁ = w₂ ∧ t₁ = t₂ := by
  intro w₁
  induction w₁ with
  | nil =>
    intro w₂ t₁ t₂ h₁ h₂ ht₁ ht₂ h
    cases w₂ with
    | nil => exact ⟨rfl, h⟩
    | cons d w₂' =>
      rcases ht₁ with rfl | ⟨u, rfl⟩
      · simp at h
      · simp only [List.nil_append, List.cons_append] at h
        injection h with hc hrest
        have hd := h₂ d (List.mem_cons_self d w₂')
        rw [← hc] at hd
        simp [isWsChar] at hd
  | cons c w₁' ih =>
    intro w₂ t₁ t₂ h₁ h₂ ht₁ ht₂ h
    cases w₂ with
    | nil =>
      rcases ht₂ with rfl | ⟨u, rfl⟩
      · simp at h
      · simp only [List.cons_append, List.nil_append] at h
        injection h with hc hrest
        have hc2 := h₁ c (List.mem_cons_self c w₁')
        rw [hc] at hc2
        simp [isWsChar] at hc2
    | cons d w₂' =>
      simp only [List.cons_append] at h
      injection h with hc hrest
      subst hc
      obtain ⟨hw, ht⟩ := ih w₂' t₁ t₂
        (fun x hx => h₁ x (List.mem_cons_of_mem c hx))
        (fun x hx => h₂ x (List.mem_cons_of_mem c hx)) ht₁ ht₂ hrest
      exact ⟨by rw [hw], ht⟩

theorem joinWords_eq_append (w : List Char) (r : List (List Char)) :
    joinWords (w :: r) = w ++ (if r.isEmpty then [] else ' ' :: joinWords r) := by
  cases r with
  | nil => simp [joinWords]
  | cons r0 rs => simp [joinWords]

/-- Joining with single spaces is injective on sequences of nonempty
whitespace-free words. -/
theorem joinWords_inj : ∀ (l₁ l₂ : List (List Char)),
    (∀ w ∈ l₁, w ≠ [] ∧ ∀ c ∈ w, isWsChar c = false) →
    (∀ w ∈ l₂, w ≠ [] ∧ ∀ c ∈ w, isWsChar c = false) →
    joinWords l₁ = joinWords l₂ → l₁ = l₂ := by
  intro l₁
  induction l₁ with
  | nil =>
    intro l₂ h₁ h₂ h
    cases l₂ with
    | nil => rfl
    | cons w r =>
      rw [joinWords_eq_append] at h
      cases w with
      | nil => exact absurd rfl (h₂ [] (List.mem_cons_self [] r)).1
      | cons c w' => simp [joinWords] at h
  | cons w₁ r₁ ih =>
    intro l₂ h₁ h₂ h
    cases l₂ with
    | nil =>
      rw [joinWords_eq_append] at h
      cases w₁ with
      | nil => exact absurd rfl (h₁ [] (List.mem_cons_self [] r₁)).1
      | cons c w' => simp [joinWords] at h
    | cons w₂ r₂ =>
      rw [joinWords_eq_append, joinWords_eq_append] at h
      have htail₁ : (if r₁.isEmpty then ([] : List Char) else ' ' :: joinWords r₁) = [] ∨
          ∃ u, (if r₁.isEmpty then ([] : List Char) else ' ' :: joinWords r₁) = ' ' :: u := by
        by_cases e : r₁.isEmpty
        · exact Or.inl (by simp [e])
        · exact Or.inr ⟨joinWords r₁, by simp [e]⟩
      have htail₂ : (if r₂.isEmpty then ([] : List Char) else ' ' :: joinWords r₂) = [] ∨
          ∃ u, (if r₂.isEmpty then ([] : List Char) else ' ' :: joinWords r₂) = ' ' :: u := by
        by_cases e : r₂.isEmpty
        · exact Or.inl (by simp [e])
        · exact Or.inr ⟨joinWords r₂, by simp [e]⟩
      obtain ⟨hw, ht⟩ := words_append_inj w₁ w₂ _ _
        (h₁ w₁ (List.mem_cons_self w₁ r₁)).2 (h₂ w₂ (List.mem_cons_self w₂ r₂)).2
        htail₁ htail₂ h
      subst hw
      by_cases e₁ : r₁.isEmpty <;> by_cases e₂ : r₂.isEmpty
      · rw [List.isEmpty_iff.mp e₁, List.isEmpty_iff.mp e₂]
      · rw [if_pos e₁, if_neg e₂] at ht
        exact absurd ht.symm (by simp)
      · rw [if_neg e₁, if_pos e₂] at ht
        exact absurd ht (by simp)
      · rw [if_neg e₁, if_neg e₂] at ht
        injection ht with _ hj
        have hr := ih r₂
          (fun x hx => h₁ x (List.mem_cons_of_mem w₁ hx))
          (fun x hx => h₂ x (List.mem_cons_of_mem w₁ hx)) hj
        rw [hr]

/-- The collapsed word sequence of a text consists of nonempty
whitespace-free words. -/
theorem textWords_props (s : String) :
    ∀ w ∈ textWords s, w ≠ [] ∧ ∀ c ∈ w, isWsChar c = false := by
  intro w hw
  obtain ⟨hmem, hne⟩ := List.mem_filter.mp hw
  exact ⟨by simpa [List.isEmpty_iff] using hne, splitWs_no_ws s.data w hmem⟩

/-- C6: two job descriptions receive the same cache key exactly when their
normalized (trimmed, whitespace-collapsed) texts agree — equivalently,
exactly when their whitespace-collapsed word sequences agree — so
whitespace-only variation (spaces, tabs, newlines) never changes the key
and any difference in the collapsed text always does; in particular a
newline/tab-separated variant shares its key with the space-separated
text. -/
theorem c6_cache_key_normalized (a b : String) :
    (normalizeText a = normalizeText b ↔ cacheKey a = cacheKey b) ∧
    (cacheKey a = cacheKey b ↔ textWords a = textWords b) ∧
    cacheKey "senior python developer" = cacheKey " senior\npython\tdeveloper " := by
  refine ⟨Iff.rfl, ⟨?_, ?_⟩, by decide⟩
  · intro h
    exact joinWords_inj (textWords a) (textWords b) (textWords_props a) (textWords_props b)
      (congrArg String.data h)
  · intro h
    show String.mk (joinWords (textWords a)) = String.mk (joinWords (textWords b))
    rw [h]

/-- C7: the caller layer rejects a submission whose trimmed length is below
100 or above 2000 characters, and submits the trimmed text otherwise. -/
theorem c7_submission_bounds (jd : String) :
    (((jsTrim jd).length < 100 ∨ 2000 < (jsTrim jd).length) →
      ∃ e, handleSubmit jd = Except.error e) ∧
    (100 ≤ (jsTrim jd).length → (jsTrim jd).length ≤ 2000 →
      handleSubmit jd = Except.ok (jsTrim jd)) := by
  constructor
  · intro h
    unfold handleSubmit
    rcases h with h | h
    · exact ⟨_, by rw [if_pos h]⟩
    · rw [if_neg (by omega), if_pos (by omega)]
      exact ⟨_, rfl⟩
  · intro h1 h2
    unfold handleSubmit
    rw [if_neg (by omega), if_neg (by omega)]

/-- A sample job description used by concrete witnesses. -/
def sampleJD : String :=
  "We are looking for a Senior Python Developer with over five years of experience in Django and AWS to join our team."

/-- Witness for C7: the sample description (114 characters once trimmed) is
accepted and submitted trimmed. -/
theorem c7_submission_bounds_witness :
    handleSubmit sampleJD = Except.ok (jsTrim sampleJD) :=
  (c7_submission_bounds sampleJD).2 (by decide) (by decide)

/-- C10: the rendered list is exactly the candidates with fitScore at least
the selected threshold (raw 0-10 scale), so any list of scores in [0,10]
renders empty under a threshold of 70 or more. -/
theorem c10_threshold_raw_scale (t : ℚ) (cands : List Candidate)
    (ht : t ∈ minScoreOptions) :
    List.Perm (filteredAndSortedCandidates t cands)
      (cands.filter fun c => decide (t ≤ c.fitScore)) ∧
    ((∀ c ∈ cands, 0 ≤ c.fitScore ∧ c.fitScore ≤ 10) → 70 ≤ t →
      filteredAndSortedCandidates t cands = []) := by
  constructor
  · exact sortDesc_perm (fun c : Candidate => c.fitScore) _
  · intro hall h70
    unfold filteredAndSortedCandidates
    have hf : (cands.filter fun c => decide (t ≤ c.fitScore)) = [] := by
      rw [List.filter_eq_nil_iff]
      intro c hc
      have hb := (hall c hc).2
      simp only [decide_eq_true_eq]
      intro hle
      linarith
    rw [hf]
    rfl

/-- Witness for C10: a candidate list whose scores lie in [0,10] renders
empty under the threshold 70. -/
theorem c10_threshold_raw_scale_witness :
    filteredAndSortedCandidates 70
      [⟨"0", "Jane Doe", "ML Engineer", "https://linkedin.com/in/janedoe", 7.35, [], "m", "a"⟩] = [] :=
  (c10_threshold_raw_scale 70
      [⟨"0", "Jane Doe", "ML Engineer", "https://linkedin.com/in/janedoe", 7.35, [], "m", "a"⟩]
      (by decide)).2
    (by intro c hc; rcases List.mem_singleton.mp hc with rfl; constructor <;> norm_num)
    (by norm_num)

/-- Monotonicity of rounding on rationals. -/
theorem round_mono_q {x y : ℚ} (h : x ≤ y) : round x ≤ round y := by
  rw [round_eq, round_eq]
  exact Int.floor_mono (by linarith)

/-- C8: the displayed fit-score percentage equals fitScore multiplied by 10
and rounded to two decimal places, hence lies in [0,100] whenever fitScore
is on the 0-10 scale; breakdown values are displayed under the same
transformation. -/
theorem c8_display_percentage (c : Candidate) :
    fitScoreDisplay c = roundTo2 (c.fitScore * 10) ∧
    (0 ≤ c.fitScore → c.fitScore ≤ 10 →
      0 ≤ fitScoreDisplay c ∧ fitScoreDisplay c ≤ 100) ∧
    scoreBreakdownDisplay c =
      c.scoreBreakdown.map (fun kv => (kv.1, roundTo2 (kv.2 * 10))) := by
  refine ⟨rfl, ?_, rfl⟩
  intro h0 h10
  unfold fitScoreDisplay
  have hlo : (0 : ℤ) ≤ round ((c.fitScore * 10) * 100) := by
    have := round_mono_q (x := 0) (y := (c.fitScore * 10) * 100) (by nlinarith)
    simpa using this
  have hhi : round ((c.fitScore * 10) * 100) ≤ 10000 := by
    have := round_mono_q (x := (c.fitScore * 10) * 100) (y := 10000) (by nlinarith)
    simpa using this
  have hlo2 : (0 : ℚ) ≤ ((round ((c.fitScore * 10) * 100) : ℤ) : ℚ) := by exact_mod_cast hlo
  have hhi2 : ((round ((c.fitScore * 10) * 100) : ℤ) : ℚ) ≤ 10000 := by exact_mod_cast hhi
  constructor
  · linarith
  · linarith

/-- Witness for C8 at a candidate with fitScore 7.35. -/
theorem c8_display_percentage_witness :
    0 ≤ fitScoreDisplay ⟨"0", "Jane Doe", "ML Engineer", "u", 7.35, [], "m", "a"⟩ ∧
    fitScoreDisplay ⟨"0", "Jane Doe", "ML Engineer", "u", 7.35, [], "m", "a"⟩ ≤ 100 :=
  (c8_display_percentage ⟨"0", "Jane Doe", "ML Engineer", "u", 7.35, [], "m", "a"⟩).2.1
    (by norm_num) (by norm_num)

/-- A breakdown accepted by validation has all six values in [0,10]. -/
theorem validateBreakdown_range {m : List (String × ℚ)} {b : ScoreBreakdown}
    (h : validateBreakdown m = some b) :
    ∀ kv ∈ b.toList, 0 ≤ kv.2 ∧ kv.2 ≤ 10 := by
  unfold validateBreakdown at h
  split at h
  case _ e ct ex cr lm tn he hct hex hcr hlm htn =>
    split at h
    case isTrue hr =>
      injection h with h2
      subst h2
      simp only [qInRange, Bool.and_eq_true, decide_eq_true_eq] at hr
      intro kv hkv
      simp only [ScoreBreakdown.toList, List.mem_cons, List.not_mem_nil, or_false] at hkv
      rcases hkv with rfl | rfl | rfl | rfl | rfl | rfl <;>
        exact ⟨by tauto, by tauto⟩
    case isFalse => exact absurd h (by simp)
  case _ => exact absurd h (by simp)

/-- The scorer output breakdown — validated or fallback — has all six values
in [0,10]. -/
theorem scoreCandidate_range (o : Option (List (String × ℚ))) :
    ∀ kv ∈ (scoreCandidate o).2.1.toList, 0 ≤ kv.2 ∧ kv.2 ≤ 10 := by
  unfold scoreCandidate
  match o with
  | none =>
    intro kv hkv
    simp only [fallbackBreakdown, ScoreBreakdown.toList, List.mem_cons,
      List.not_mem_nil, or_false] at hkv
    rcases hkv with rfl | rfl | rfl | rfl | rfl | rfl <;> norm_num
  | some m =>
    simp only
    split
    case _ b hb => exact validateBreakdown_range hb
    case _ hb =>
      intro kv hkv
      simp only [fallbackBreakdown, ScoreBreakdown.toList, List.mem_cons,
        List.not_mem_nil, or_false] at hkv
      rcases hkv with rfl | rfl | rfl | rfl | rfl | rfl <;> norm_num

/-- C2: every candidate the pipeline returns to the presentation layer —
fallback cases included — carries a breakdown with exactly the six criterion
keys, each value in [0,10]; and the frontend mapping passes a present
breakdown through unchanged. -/
theorem c2_six_keys_in_range (s1 s2 s3 : StrategyResult)
    (scoreOf : CandidateProfile → Option (List (String × ℚ)))
    (msgOf : CandidateProfile → Option String) (role : String) (maxResults : Nat)
    (results : List RankedResult)
    (hrun : runPipeline s1 s2 s3 scoreOf msgOf role maxResults = Except.ok results) :
    (∀ r ∈ results, r.breakdown.toList.map Prod.fst = criteriaNames ∧
      ∀ kv ∈ r.breakdown.toList, 0 ≤ kv.2 ∧ kv.2 ≤ 10) ∧
    (∀ (idx : Nat) (bc : BackendCandidate) (m : List (String × ℚ)),
      bc.score_breakdown = some m → (mapCandidate idx bc).scoreBreakdown = m) := by
  constructor
  · unfold runPipeline at hrun
    split at hrun
    case _ => exact absurd hrun (by simp)
    case _ ps hps =>
      injection hrun with hr
      subst hr
      intro r hr
      have hmem : r ∈ ps.map (makeResult scoreOf msgOf role) :=
        (sortDesc_perm (fun t : RankedResult => t.fit_score) _).mem_iff.mp hr
      rcases List.mem_map.mp hmem with ⟨p, _, rfl⟩
      constructor
      · simp [makeResult, ScoreBreakdown.toList, criteriaNames]
      · exact scoreCandidate_range (scoreOf p)
  · intro idx bc m hm
    simp [mapCandidate, hm]

/-- Witness for C2: a one-candidate run whose inference double fails, so the
returned breakdown is the all-5 fallback; its keys and the education value
check out. -/
theorem c2_six_keys_in_range_witness :
    (makeResult (fun _ => none) (fun _ => none) "Engineer"
        ⟨"https://linkedin.com/in/a", "Ada", "Engineer", "", "google"⟩).breakdown.toList.map
      Prod.fst = criteriaNames ∧
    (0 ≤ (5 : ℚ) ∧ (5 : ℚ) ≤ 10) := by
  have h := (c2_six_keys_in_range
      (StrategyResult.ok [⟨"https://linkedin.com/in/a", "Ada", "Engineer", "", "google"⟩])
      StrategyResult.failed StrategyResult.failed
      (fun _ => none) (fun _ => none) "Engineer" 10 _ rfl).1
      (makeResult (fun _ => none) (fun _ => none) "Engineer"
        ⟨"https://linkedin.com/in/a", "Ada", "Engineer", "", "google"⟩)
      (List.mem_singleton.mpr rfl)
  exact ⟨h.1, h.2 ("education", 5) (by decide)⟩

/-- C4: a discovery chain in which every strategy runs but finds zero
profiles yields the empty sequence (no error); DiscoveryUnavailable is
signaled exactly when all three strategies fail outright, and then the
pipeline aborts with that error. -/
theorem c4_discovery_unavailable (s1 s2 s3 : StrategyResult) (maxResults : Nat)
    (scoreOf : CandidateProfile → Option (List (String × ℚ)))
    (msgOf : CandidateProfile → Option String) (role : String) :
    (s1 = StrategyResult.ok [] → s2 = StrategyResult.ok [] → s3 = StrategyResult.ok [] →
      discover s1 s2 s3 maxResults = Except.ok []) ∧
    (discover s1 s2 s3 maxResults = Except.error PipelineError.discoveryUnavailable ↔
      s1 = StrategyResult.failed ∧ s2 = StrategyResult.failed ∧ s3 = StrategyResult.failed) ∧
    (s1 = StrategyResult.failed → s2 = StrategyResult.failed → s3 = StrategyResult.failed →
      runPipeline s1 s2 s3 scoreOf msgOf role maxResults =
        Except.error PipelineError.discoveryUnavailable) := by
  refine ⟨?_, ?_, ?_⟩
  · intro h1 h2 h3
    subst h1; subst h2; subst h3
    rfl
  · cases s1 <;> cases s2 <;> cases s3 <;>
      simp [discover, runChain] <;> split_ifs <;> simp_all
  · intro h1 h2 h3
    subst h1; subst h2; subst h3
    rfl

/-- Witness for C4: all-empty strategies give an empty success; all-failed
strategies abort the pipeline with DiscoveryUnavailable. -/
theorem c4_discovery_unavailable_witness :
    discover (StrategyResult.ok []) (StrategyResult.ok []) (StrategyResult.ok []) 10 =
      Except.ok [] ∧
    runPipeline StrategyResult.failed StrategyResult.failed StrategyResult.failed
        (fun _ => none) (fun _ => none) "Engineer" 10 =
      Except.error PipelineError.discoveryUnavailable :=
  ⟨(c4_discovery_unavailable (StrategyResult.ok []) (StrategyResult.ok [])
      (StrategyResult.ok []) 10 (fun _ => none) (fun _ => none) "Engineer").1 rfl rfl rfl,
   (c4_discovery_unavailable StrategyResult.failed StrategyResult.failed
      StrategyResult.failed 10 (fun _ => none) (fun _ => none) "Engineer").2.2 rfl rfl rfl⟩

/-! ## Composer lemmas -/

theorem joinWords_cons_length (w : List Char) (rest : List (List Char)) :
    (joinWords (w :: rest)).length = w.length + (rest.map fun u => u.length + 1).sum := by
  induction rest generalizing w with
  | nil => simp [joinWords]
  | cons r rs ih =>
    show (w ++ ' ' :: joinWords (r :: rs)).length = _
    simp only [List.length_append, List.length_cons, ih r, List.map_cons, List.sum_cons]
    omega

theorem fitMore_budget (ws : List (List Char)) (rem : Nat) :
    ((fitMore rem ws).map fun u => u.length + 1).sum ≤ rem := by
  induction ws generalizing rem with
  | nil => simp [fitMore]
  | cons w rest ih =>
    rw [fitMore]
    split
    case isTrue h =>
      simp only [List.map_cons, List.sum_cons]
      have := ih (rem - (w.length + 1))
      omega
    case isFalse h => simp

theorem joinWords_fitWords_length (maxLen : Nat) (ws : List (List Char)) :
    (joinWords (fitWords maxLen ws)).length ≤ maxLen := by
  cases ws with
  | nil => simp [fitWords, joinWords]
  | cons w rest =>
    rw [fitWords]
    split
    case isTrue h =>
      rw [joinWords_cons_length]
      have := fitMore_budget rest (maxLen - w.length)
      omega
    case isFalse h => simp [joinWords]

theorem fitMore_is_take (ws : List (List Char)) (rem : Nat) :
    ∃ k, fitMore rem ws = ws.take k := by
  induction ws generalizing rem with
  | nil => exact ⟨0, rfl⟩
  | cons w rest ih =>
    rw [fitMore]
    split
    case isTrue h =>
      obtain ⟨k, hk⟩ := ih (rem - (w.length + 1))
      exact ⟨k + 1, by simp [List.take, hk]⟩
    case isFalse h => exact ⟨0, rfl⟩

theorem fitWords_is_take (maxLen : Nat) (ws : List (List Char)) :
    ∃ k, fitWords maxLen ws = ws.take k := by
  cases ws with
  | nil => exact ⟨0, rfl⟩
  | cons w rest =>
    rw [fitWords]
    split
    case isTrue h =>
      obtain ⟨k, hk⟩ := fitMore_is_take rest (maxLen - w.length)
      exact ⟨k + 1, by simp [List.take, hk]⟩
    case isFalse h => exact ⟨0, rfl⟩

theorem truncate_length_le (maxLen : Nat) (cs : List Char) :
    (truncateAtWordBoundary maxLen cs).length ≤ maxLen := by
  unfold truncateAtWordBoundary
  split
  case isTrue h => exact h
  case isFalse h => exact joinWords_fitWords_length maxLen (splitWords cs)

theorem truncate_boundary (maxLen : Nat) (cs : List Char) :
    truncateAtWordBoundary maxLen cs = cs ∨
      ∃ k, truncateAtWordBoundary maxLen cs = joinWords ((splitWords cs).take k) := by
  unfold truncateAtWordBoundary
  split
  case isTrue h => exact Or.inl rfl
  case isFalse h =>
    obtain ⟨k, hk⟩ := fitWords_is_take maxLen (splitWords cs)
    exact Or.inr ⟨k, by rw [hk]⟩

theorem composeBase_cases (inference : Option String) (p : CandidateProfile) (role : String) :
    composeBase inference p role = fallbackMessage p role ∨
      ∃ m, inference = some m ∧ composeBase inference p role = m.data := by
  cases inference with
  | none => exact Or.inl rfl
  | some m =>
    by_cases hb : m.data.all (fun c => c = ' ')
    · exact Or.inl (by simp [composeBase, hb])
    · exact Or.inr ⟨m, rfl, by simp [composeBase, hb]⟩

/-- C5: compose always returns a non-empty message of length at most the
maximum bound, even on inference failure (when the deterministic template
from the candidate name/headline is substituted), and any truncation
happens at a word boundary — the output's words are a take-prefix of the
source message's words — never mid-word. -/
theorem c5_compose_bounded_nonempty (inference : Option String) (p : CandidateProfile)
    (role : String) :
    0 < (compose inference p role).length ∧
    (compose inference p role).length ≤ maxMessageLength ∧
    ∃ base : List Char,
      (base = fallbackMessage p role ∨ ∃ m, inference = some m ∧ base = m.data) ∧
      ((compose inference p role).data = base ∨
       (∃ k, (compose inference p role).data = joinWords ((splitWords base).take k)) ∨
       (compose inference p role).data = minimalMessage) := by
  have hcore : compose inference p role =
      if (truncateAtWordBoundary maxMessageLength (composeBase inference p role)).isEmpty
      then String.mk minimalMessage
      else String.mk (truncateAtWordBoundary maxMessageLength (composeBase inference p role)) :=
    rfl
  rw [hcore]
  by_cases hemp :
      (truncateAtWordBoundary maxMessageLength (composeBase inference p role)).isEmpty
  · rw [if_pos hemp]
    exact ⟨by decide, by decide,
      composeBase inference p role, composeBase_cases inference p role,
      Or.inr (Or.inr rfl)⟩
  · rw [if_neg hemp]
    have hne : truncateAtWordBoundary maxMessageLength (composeBase inference p role) ≠ [] := by
      simpa [List.isEmpty_iff] using hemp
    refine ⟨List.length_pos.mpr hne, truncate_length_le _ _,
      composeBase inference p role, composeBase_cases inference p role, ?_⟩
    rcases truncate_boundary maxMessageLength (composeBase inference p role) with h | ⟨k, hk⟩
    · exact Or.inl h
    · exact Or.inr (Or.inl ⟨k, hk⟩)

/-! ## Decimal representation and the fetchCandidates mapping -/

theorem toDigitsCore_eq_decDigits :
    ∀ (f n : Nat) (acc : List Char), n < f →
      Nat.toDigitsCore 10 f n acc = decDigits n ++ acc := by
  intro f
  induction f with
  | zero => intro n acc h; omega
  | succ f ih =>
    intro n acc h
    rw [Nat.toDigitsCore]
    by_cases h10 : n / 10 = 0
    · have hn : n < 10 := by omega
      rw [if_pos h10, decDigits, dif_pos hn]
      have hmod : n % 10 = n := by omega
      rw [hmod]
      rfl
    · have hn : ¬ n < 10 := by omega
      rw [if_neg h10, ih (n / 10) _ (by omega)]
      conv_rhs => rw [decDigits, dif_neg hn]
      simp

theorem natRepr_eq_decDigits (n : Nat) : Nat.repr n = (decDigits n).asString := by
  show (Nat.toDigits 10 n).asString = _
  rw [Nat.toDigits, toDigitsCore_eq_decDigits (n + 1) n [] (Nat.lt_succ_self n)]
  simp

theorem decVal_append_one (l : List Char) (c : Char) :
    decVal (l ++ [c]) = 10 * decVal l + (c.toNat - 48) := by
  unfold decVal
  rw [List.foldl_append]
  simp [Nat.mul_comm]

theorem digitChar_toNat (d : Nat) (hd : d < 10) : (Nat.digitChar d).toNat = 48 + d := by
  interval_cases d <;> decide

theorem decVal_decDigits (n : Nat) : decVal (decDigits n) = n := by
  induction n using Nat.strong_induction_on with
  | _ n ih =>
    rw [decDigits]
    by_cases h : n < 10
    · rw [dif_pos h]
      unfold decVal
      simp [digitChar_toNat n h]
    · rw [dif_neg h]
      rw [decVal_append_one, ih (n / 10) (Nat.div_lt_self (by omega) (by omega)),
        digitChar_toNat (n % 10) (by omega)]
      omega

/-- Distinct natural numbers have distinct decimal string representations. -/
theorem natRepr_injective : Function.Injective Nat.repr := by
  intro m n h
  rw [natRepr_eq_decDigits, natRepr_eq_decDigits] at h
  have hdata : decDigits m = decDigits n := congrArg String.data h
  have hval := congrArg decVal hdata
  rwa [decVal_decDigits, decVal_decDigits] at hval

theorem mapWithIndex_length {α β : Type} (f : Nat → α → β) :
    ∀ (i : Nat) (l : List α), (mapWithIndex f i l).length = l.length := by
  intro i l
  induction l generalizing i with
  | nil => rfl
  | cons a rest ih => simp [mapWithIndex, ih]

theorem mapWithIndex_getElem {α β : Type} (f : Nat → α → β) :
    ∀ (l : List α) (i j : Nat) (a : α), l[j]? = some a →
      (mapWithIndex f i l)[j]? = some (f (i + j) a) := by
  intro l
  induction l with
  | nil => intro i j a h; simp at h
  | cons b rest ih =>
    intro i j a h
    cases j with
    | zero =>
      simp only [List.getElem?_cons_zero, Option.some.injEq] at h
      subst h
      simp [mapWithIndex]
    | succ j =>
      simp only [List.getElem?_cons_succ] at h
      have := ih (i + 1) j a h
      simpa [mapWithIndex, Nat.add_assoc, Nat.add_comm 1 j] using this

theorem mapWithIndex_ids :
    ∀ (i : Nat) (l : List BackendCandidate),
      (mapWithIndex mapCandidate i l).map (fun c => c.id) =
        (List.range' i l.length).map Nat.repr := by
  intro i l
  induction l generalizing i with
  | nil => rfl
  | cons b rest ih =>
    simp [mapWithIndex, List.range', ih (i + 1), mapCandidate]

/-- C9: fetchCandidates yields one candidate per backend entry (none when
the field is absent), replaces each missing field by its default, uses the
decimal position as id, and those ids are pairwise distinct. -/
theorem c9_fetch_candidates_mapping (resp : Option (List BackendCandidate)) :
    fetchCandidates none = [] ∧
    (fetchCandidates resp).length = (resp.getD []).length ∧
    (∀ (i : Nat) (bc : BackendCandidate), (resp.getD [])[i]? = some bc →
      (fetchCandidates resp)[i]? = some (mapCandidate i bc)) ∧
    (∀ (idx : Nat) (bc : BackendCandidate),
      (mapCandidate idx bc).id = Nat.repr idx ∧
      (bc.bname = none → (mapCandidate idx bc).name = "") ∧
      (bc.headline = none → (mapCandidate idx bc).title = "") ∧
      (bc.linkedin_url = none → bc.url = none → (mapCandidate idx bc).linkedinUrl = "") ∧
      (bc.fit_score = none → (mapCandidate idx bc).fitScore = 0) ∧
      (bc.score_breakdown = none → (mapCandidate idx bc).scoreBreakdown = []) ∧
      (bc.outreach_message = none → bc.bmessage = none →
        (mapCandidate idx bc).outreachMessage = "")) ∧
    ((fetchCandidates resp).map (fun c => c.id)).Nodup := by
  refine ⟨rfl, mapWithIndex_length mapCandidate 0 _, ?_, ?_, ?_⟩
  · intro i bc h
    simpa using mapWithIndex_getElem mapCandidate (resp.getD []) 0 i bc h
  · intro idx bc
    refine ⟨rfl, ?_, ?_, ?_, ?_, ?_, ?_⟩
    · intro h; simp [mapCandidate, jsOrS, h]
    · intro h; simp [mapCandidate, jsOrS, h]
    · intro h1 h2; simp [mapCandidate, jsOrS, h1, h2]
    · intro h; simp [mapCandidate, jsOrQ, h]
    · intro h; simp [mapCandidate, h]
    · intro h1 h2; simp [mapCandidate, jsOrS, h1, h2]
  · rw [fetchCandidates, mapWithIndex_ids 0 (resp.getD [])]
    exact (List.nodup_range' _ _).map natRepr_injective

/-- Witness for C9 on a two-element response with all fields missing in the
first entry. -/
theorem c9_fetch_candidates_mapping_witness :
    (fetchCandidates (some
        [⟨none, none, none, none, none, none, none, none⟩,
         ⟨some "Ada", some "Engineer", some "u", none, some 7, some [], some "m", none⟩]))[0]? =
      some (mapCandidate 0 ⟨none, none, none, none, none, none, none, none⟩) :=
  (c9_fetch_candidates_mapping (some
        [⟨none, none, none, none, none, none, none, none⟩,
         ⟨some "Ada", some "Engineer", some "u", none, some 7, some [], some "m", none⟩])).2.2.1
    0 ⟨none, none, none, none, none, none, none, none⟩ rfl

end Sourcing
